import Mathlib

/-!
Shallow embedding of the `filesplitter`/`dirsplitter` split/merge engine.

File contents are byte lists (`Bytes`); machine-level I/O is modelled as
explicit state (an association list from paths to entries) or as pure value
passing.  The SHA-256 digest and zlib compression are treated as parameters
(`sha : Bytes → String`, `zcompress`, `zdecompress`): the code only feeds
bytes to them and compares their outputs, so every property below is
independent of their concrete definition, except the documented external
facts about zlib noted at the relevant theorems.

Sources embedded:
  * `src/filesplitter.py`: `split_file`, `merge`, `compute_hash`,
    `get_sorted_files`, `remove_dir`.
  * `src/dirsplitter.py`: `collect_dirs`, `merge_dir`.
-/

/-- A file's content: a list of byte values. -/
abbrev Bytes := List Nat

/-- `math.ceil(a / b)` for natural `a`, positive `b` (exact ceiling division,
modelling the float division plus `math.ceil` in `split_file`). -/
def pyCeilDiv (a b : Nat) : Nat := (a + b - 1) / b

/-- Python truthiness of a string: non-empty strings are truthy.
`merge` does `if decompress:` where `decompress` is the raw string read
from `config["OPERATION"]["compress"]`. -/
def pyTruthy (s : String) : Bool := s != ""

/-- `str(b)` for a Python bool, as `ConfigParser.read_dict` stores it. -/
def pyStr (b : Bool) : String := if b then "True" else "False"

/-- The chunk-size / part-count resolution in `split_file` (lines 109-112):
`if parts > 0: chunk_size = math.ceil(filesize / parts)`
`else: parts = math.ceil(filesize / chunk_size)`.
Returns the resolved `(parts, chunk_size)`. -/
def chunkPlan (filesize parts chunk_size : Nat) : Nat × Nat :=
  if 0 < parts then (parts, pyCeilDiv filesize parts)
  else (pyCeilDiv filesize chunk_size, chunk_size)

/-- The sequence of buffers returned by the `file_handle.read(chunk_size)`
calls in the `for part in range(parts)` loop of `split_file`: the i-th
sequential read of `chunk_size` bytes returns the slice starting at
`i * chunk_size` (and `read(0)` returns the empty buffer). -/
def readChunks (content : Bytes) (parts chunk_size : Nat) : List Bytes :=
  (List.range parts).map (fun i => (content.drop (i * chunk_size)).take chunk_size)

/-- The byte lengths of the chunks `split_file` writes (before compression). -/
def partSizes (content : Bytes) (parts chunk_size : Nat) : List Nat :=
  (readChunks content parts chunk_size).map List.length

/-- The part file name `f"{filename}.{part}.prt"` from `split_file` line 132. -/
def partFileName (filename : String) (part : Nat) : String :=
  filename ++ "." ++ toString part ++ ".prt"

/-- The successive buffers read by the `while True` loop of `compute_hash`:
read `block_size` bytes, stop on an empty buffer.  A zero block size stops
immediately (Python's `read(0)` returns `b""`). -/
def readBlocks (content : Bytes) (block_size : Nat) : List Bytes :=
  if h : block_size = 0 ∨ content = [] then []
  else (content.take block_size) :: readBlocks (content.drop block_size) block_size
termination_by content.length
decreasing_by
  push_neg at h
  have hc : 0 < content.length := List.length_pos.mpr h.2
  have hb : 0 < block_size := Nat.pos_of_ne_zero h.1
  simpa using Nat.sub_lt hc hb

/-- `compute_hash` (filesplitter.py lines 205-222): the hash accumulator is
fed the successive blocks; by the hashlib contract the final digest is the
digest of the concatenation of all `update` inputs. -/
def compute_hash (sha : Bytes → String) (content : Bytes) (block_size : Nat) : String :=
  sha (readBlocks content block_size).flatten

/-- Key lookup in an association list: first entry with the given key, as a
Python `dict`/`ConfigParser` section lookup (`None` modelling `KeyError`)
or a by-name file read inside a directory. -/
def assocLookup {α β : Type} [DecidableEq α] (entries : List (α × β)) (key : α) : Option β :=
  match entries with
  | [] => none
  | e :: rest => if key = e.1 then some e.2 else assocLookup rest key

/-- The configuration record written to `config.ini` by `split_file`.
`ConfigParser` stores every value as a string; the fields kept as `Nat`
(`size`, `parts`, the part-entry keys) are written with `str` and read back
with `int`, which round-trips, so they are modelled at `Nat`.  The
`compress` field is stored and *read back* as the raw string `str(bool)` —
`merge` never parses it — so it is modelled as a `String`. -/
structure IniConfig where
  filename : String
  size : Nat
  hash : String
  compress : String
  parts : Nat
  partEntries : List (Nat × String)
deriving DecidableEq

/-- The `config["PARTS"][str(part)] = part_filepath.name` assignments made
by the split loop, one per part index. -/
def mkConfigParts (filename : String) (parts : Nat) : List (Nat × String) :=
  (List.range parts).map (fun i => (i, partFileName filename i))

/-- A split sibling directory as produced by `split_file`: the part files
(name and on-disk bytes, in creation order) plus the parsed `config.ini`. -/
structure SplitDir where
  config : IniConfig
  files : List (String × Bytes)
deriving DecidableEq

/-- The value-level core of `split_file` (filesplitter.py lines 73-148) on a
file whose full name is `filename` and whose content is `content`:
argument check, hash, chunk planning, the read/compress/write loop, and the
descriptor it records.  Returns `none` when the function bails out on
`parts == 0 and chunk_size == 0`. -/
def split_file (sha : Bytes → String) (zcompress : Bytes → Bytes)
    (filename : String) (content : Bytes)
    (parts chunk_size : Nat) (compress : Bool) : Option SplitDir :=
  if parts = 0 ∧ chunk_size = 0 then none
  else
    let filesize := content.length
    let filehash := compute_hash sha content 512
    let pc := chunkPlan filesize parts chunk_size
    let chunks := readChunks content pc.1 pc.2
    let files := chunks.enum.map
      (fun e => (partFileName filename e.1, if compress then zcompress e.2 else e.2))
    some { config := { filename := filename, size := filesize, hash := filehash,
                       compress := pyStr compress, parts := pc.1,
                       partEntries := mkConfigParts filename pc.1 },
           files := files }

/-- Exceptions that can escape `merge` (and `exit(1)`, modelled as the
`SystemExit` it raises). -/
inductive MergeErr where
  | keyError
  | fileNotFound
  | zlibError
  | systemExit (code : Nat)
deriving DecidableEq

deriving instance DecidableEq for Except

/-- The loop body of `get_sorted_files` over a list of part indices:
`config["PARTS"][str(part)]` for each index (a missing key raises
`KeyError`). -/
def collectNames (config : IniConfig) : List Nat → Except MergeErr (List String)
  | [] => Except.ok []
  | i :: rest =>
    match assocLookup config.partEntries i with
    | none => Except.error MergeErr.keyError
    | some name => (collectNames config rest).map (fun ns => name :: ns)

/-- `get_sorted_files` (filesplitter.py lines 237-249): the part file names
in descriptor index order `0 .. parts-1`. -/
def get_sorted_files (config : IniConfig) : Except MergeErr (List String) :=
  collectNames config (List.range config.parts)

/-- The `for path in get_sorted_files(...)` loop of `merge`: read the part's
bytes (`FileNotFoundError` if absent), decompress when the truthiness test
passes, and append to the target file (the accumulator `target`). -/
def mergeLoop (zdecompress : Bytes → Except MergeErr Bytes) (dec : Bool)
    (files : List (String × Bytes)) (target : Bytes) :
    List String → Except MergeErr Bytes
  | [] => Except.ok target
  | name :: rest =>
    match assocLookup files name with
    | none => Except.error MergeErr.fileNotFound
    | some buffer =>
      match (if dec then zdecompress buffer else Except.ok buffer) with
      | Except.error e => Except.error e
      | Except.ok buffer2 => mergeLoop zdecompress dec files (target ++ buffer2) rest

/-- The reconstruction phase of `merge` (filesplitter.py lines 151-186):
read `decompress = config["OPERATION"]["compress"]` (a string), walk the
parts in `get_sorted_files` order and append each processed buffer to the
target file, which starts absent (stale targets are unlinked first); a
directory with no parts yields the empty target written at line 188. -/
def mergeContent (zdecompress : Bytes → Except MergeErr Bytes) (d : SplitDir) :
    Except MergeErr Bytes :=
  match get_sorted_files d.config with
  | Except.error e => Except.error e
  | Except.ok names =>
    mergeLoop zdecompress (pyTruthy d.config.compress) d.files [] names

/-- `merge` (filesplitter.py lines 151-202): reconstruct, then verify the
hash of the reconstructed target against the recorded hash; on mismatch the
source calls `exit(1)`, which raises `SystemExit`. -/
def merge (sha : Bytes → String) (zdecompress : Bytes → Except MergeErr Bytes)
    (d : SplitDir) : Except MergeErr Bytes :=
  match mergeContent zdecompress d with
  | Except.error e => Except.error e
  | Except.ok target =>
    if compute_hash sha target 512 = d.config.hash then Except.ok target
    else Except.error (MergeErr.systemExit 1)

/-- The `for subdir_path in subdir_pathlist: merge(...)` loop of `merge_dir`
(dirsplitter.py lines 214-217), instrumented with the outcome of each
`merge` call that actually runs: the loop body catches nothing, so the
first exception (including the `SystemExit` from `exit(1)`) aborts the
whole loop. -/
def merge_dir_trace (sha : Bytes → String)
    (zdecompress : Bytes → Except MergeErr Bytes) :
    List SplitDir → List (Except MergeErr Bytes)
  | [] => []
  | d :: rest =>
    match merge sha zdecompress d with
    | Except.ok b => Except.ok b :: merge_dir_trace sha zdecompress rest
    | Except.error e => [Except.error e]

/-- An entry of the modelled filesystem: a regular file with its bytes, or
a directory. -/
inductive Entry where
  | file (content : Bytes)
  | dir
deriving DecidableEq

/-- A resolved filesystem path, as its components. -/
abbrev FsPath := List String

/-- The filesystem state: an association of resolved paths to entries. -/
abbrev FS := List (FsPath × Entry)

/-- The entry at a path, if any (`Path.stat` / `Path.exists`). -/
def lookupFS (fs : FS) (p : FsPath) : Option Entry := assocLookup fs p

/-- Delete the entry at a path (`Path.unlink` / `Path.rmdir`). -/
def removeEntryFS (fs : FS) (p : FsPath) : FS :=
  fs.filter (fun e => decide (e.1 ≠ p))

/-- Create or overwrite an entry (`open("wb")` truncates, `mkdir` creates). -/
def setFS (fs : FS) (p : FsPath) (e : Entry) : FS :=
  removeEntryFS fs p ++ [(p, e)]

/-- The direct children of a directory, as `dirpath.glob("*")` yields them. -/
def childrenFS (fs : FS) (p : FsPath) : List (FsPath × Entry) :=
  fs.filter (fun e => decide (e.1.length = p.length + 1) && decide (p <+: e.1))

/-- The `for path in dirpath.glob("*"): path.unlink()` loop of `remove_dir`:
unlinking a file removes it; unlinking a subdirectory raises
`IsADirectoryError`, aborting the loop with the earlier files already
gone. -/
def unlinkChildren (fs : FS) : List (FsPath × Entry) → FS × Bool
  | [] => (fs, true)
  | (p, Entry.file _) :: rest => unlinkChildren (removeEntryFS fs p) rest
  | (_, Entry.dir) :: _ => (fs, false)

/-- `remove_dir` (filesplitter.py lines 225-233): when the path is a
directory, unlink every direct child and then `rmdir` the directory; on any
other entry (or no entry) do nothing. -/
def remove_dir (fs : FS) (p : FsPath) : FS × Bool :=
  match lookupFS fs p with
  | some Entry.dir =>
    match unlinkChildren fs (childrenFS fs p) with
    | (fs2, true) => (removeEntryFS fs2 p, true)
    | (fs2, false) => (fs2, false)
  | _ => (fs, true)

/-- `Path(name).suffixes` (pathlib): empty for a name ending in a dot,
otherwise every dot-suffix of the name with leading dots stripped. -/
def pySuffixes (name : String) : List String :=
  if name.endsWith "." then []
  else
    match (name.dropWhile (fun c => c = '.')).splitOn "." with
    | [] => []
    | _ :: rest => rest.map (fun s => "." ++ s)

/-- `str.removesuffix`. -/
def pyRemoveSuffix (name s : String) : String :=
  if name.endsWith s then name.dropRight s.length else name

/-- `filename.removesuffix("".join(filepath.suffixes))`, the sibling
directory name derived in `split_file`. -/
def pyBasename (name : String) : String :=
  pyRemoveSuffix name (String.join (pySuffixes name))

/-- How a run of the stateful `split_file` ends: normally, or at one of the
exceptions/early returns it can take, in source order. -/
inductive SplitStatus where
  | okDone
  | invalidArguments
  | sourceNotFound
  | removeDirFailed
  | mkdirFailed
deriving DecidableEq

/-- The part-writing loop of `split_file` against the filesystem: one
`open("wb")`/`write` per stored chunk, at the part's file name inside the
sibling directory. -/
def writeParts (fs : FS) (subdir : FsPath) (filename : String)
    (stored : List Bytes) : FS :=
  stored.enum.foldl
    (fun acc e => setFS acc (subdir ++ [partFileName filename e.1]) (Entry.file e.2)) fs

/-- `split_file` (filesplitter.py lines 73-148) threaded through the
filesystem state, in source order: the argument guard returns untouched;
`filepath.stat()` raises `FileNotFoundError` on a missing path;
`compute_hash`'s `open("rb")` raises `IsADirectoryError` when the resolved
path is a directory (both before any mutation); then `remove_dir` on the
sibling directory, `mkdir` (which raises `FileExistsError` if an entry
still occupies the name), the part writes, the `config.ini` write
(serialized by the `encodeConfig` parameter), and the optional
`missing_ok` unlink of the source. -/
def split_file_st (sha : Bytes → String) (zcompress : Bytes → Bytes)
    (encodeConfig : IniConfig → Bytes) (fs : FS)
    (parent : FsPath) (filename : String)
    (parts chunk_size : Nat) (remove compress : Bool) : FS × SplitStatus :=
  if parts = 0 ∧ chunk_size = 0 then (fs, SplitStatus.invalidArguments)
  else
    let filepath := parent ++ [filename]
    match lookupFS fs filepath with
    | none => (fs, SplitStatus.sourceNotFound)
    | some Entry.dir => (fs, SplitStatus.sourceNotFound)
    | some (Entry.file content) =>
      let filesize := content.length
      let basename := pyBasename filename
      let filehash := compute_hash sha content 512
      let pc := chunkPlan filesize parts chunk_size
      let subdir := parent ++ [basename]
      match remove_dir fs subdir with
      | (fs1, false) => (fs1, SplitStatus.removeDirFailed)
      | (fs1, true) =>
        match lookupFS fs1 subdir with
        | some _ => (fs1, SplitStatus.mkdirFailed)
        | none =>
          let fs2 := setFS fs1 subdir Entry.dir
          let chunks := readChunks content pc.1 pc.2
          let stored := chunks.map (fun c => if compress then zcompress c else c)
          let fs3 := writeParts fs2 subdir filename stored
          let config : IniConfig :=
            { filename := filename, size := filesize, hash := filehash,
              compress := pyStr compress, parts := pc.1,
              partEntries := mkConfigParts filename pc.1 }
          let fs4 := setFS fs3 (subdir ++ ["config.ini"]) (Entry.file (encodeConfig config))
          let fs5 := if remove then removeEntryFS fs4 filepath else fs4
          (fs5, SplitStatus.okDone)

/-- The split directory `split_file` produces for a 2-byte file `a.txt`
with `chunk_size = 1` and no compression (digest parameter instantiated
with the constant empty string). -/
def splitDirEx : SplitDir :=
  { config := { filename := "a.txt", size := 2, hash := "", compress := "False",
                parts := 2,
                partEntries := [(0, "a.txt.0.prt"), (1, "a.txt.1.prt")] },
    files := [("a.txt.0.prt", [97]), ("a.txt.1.prt", [98])] }

/-- A zero-part split directory whose recorded hash does not match the
digest of the empty reconstruction (digest parameter instantiated with the
constant `"H"`): merging it hits the hash-mismatch `exit(1)`. -/
def dirBadEx : SplitDir :=
  { config := { filename := "bad", size := 0, hash := "BAD", compress := "False",
                parts := 0, partEntries := [] },
    files := [] }

/-- A zero-part split directory whose recorded hash matches the digest of
the empty reconstruction under the constant digest `"H"`: merging it
succeeds. -/
def dirGoodEx : SplitDir :=
  { config := { filename := "good", size := 0, hash := "H", compress := "False",
                parts := 0, partEntries := [] },
    files := [] }

mutual

/-- A directory tree as walked by `collect_dirs` (dirsplitter.py lines
96-129): its name, whether it contains a `config.ini`, and its
subdirectories (files other than the descriptor play no role in the
traversal, which enqueues only `subdir.is_dir()` children). -/
inductive DirTree where
  | node (name : String) (hasConfig : Bool) (children : DirForest)

/-- The subdirectories of a directory. -/
inductive DirForest where
  | nil
  | cons (head : DirTree) (tail : DirForest)

end

instance : Inhabited DirForest := ⟨DirForest.nil⟩

instance : Inhabited DirTree := ⟨DirTree.node "" false DirForest.nil⟩

/-- The subdirectory list of a forest. -/
def DirForest.toList : DirForest → List DirTree
  | .nil => []
  | .cons t f => t :: f.toList

/-- The directory's own name. -/
def DirTree.name : DirTree → String
  | .node n _ _ => n

/-- Whether `(cur_dir / "config.ini").exists()`. -/
def DirTree.hasConfig : DirTree → Bool
  | .node _ c _ => c

/-- The direct subdirectories, as `cur_dir.glob("*")` with `is_dir()`. -/
def DirTree.children : DirTree → List DirTree
  | .node _ _ f => f.toList

mutual

/-- Number of directories in a tree (the traversal's termination measure). -/
def DirTree.size : DirTree → Nat
  | .node _ _ f => 1 + DirForest.sizeF f

/-- Number of directories in a forest. -/
def DirForest.sizeF : DirForest → Nat
  | .nil => 0
  | .cons t rest => DirTree.size t + DirForest.sizeF rest

end

mutual

/-- Well-formedness of a real directory tree: sibling names are distinct at
every level (the filesystem guarantees this), so resolved paths identify
directories uniquely. -/
def nodupTreeB : DirTree → Bool
  | .node _ _ f => decide ((f.toList.map DirTree.name).Nodup) && nodupForestB f

/-- Well-formedness of every tree in a forest. -/
def nodupForestB : DirForest → Bool
  | .nil => true
  | .cons t rest => nodupTreeB t && nodupForestB rest

end

/-- Total tree size of a pending BFS queue. -/
def queueSize (q : List (FsPath × DirTree)) : Nat :=
  (q.map (fun e => e.2.size)).sum

/-- Lemma (used for the traversal's termination): the forest size is the sum
of its trees' sizes. -/
theorem sizeF_toList : ∀ (f : DirForest),
    DirForest.sizeF f = (f.toList.map DirTree.size).sum
  | .nil => by simp [DirForest.sizeF, DirForest.toList]
  | .cons t rest => by
      have ih := sizeF_toList rest
      simp [DirForest.sizeF, DirForest.toList, ih]

/-- Lemma (used for the traversal's termination): every tree has at least
one directory. -/
theorem size_pos (t : DirTree) : 0 < t.size := by
  cases t with
  | node n c f => simp [DirTree.size]

/-- Lemma (used for the traversal's termination): a node's children are
together smaller than the node. -/
theorem childrenSize_lt (t : DirTree) :
    ((t.children.map (fun c => c.size)).sum) < t.size := by
  cases t with
  | node n c f =>
    simp [DirTree.children, DirTree.size, ← sizeF_toList]

/-- `collect_dirs` (dirsplitter.py lines 96-129): breadth-first queue over
`(resolved path, directory)` pairs.  Dequeue; if the resolved path is in
the (already resolved) ignore list, skip it entirely; else if it contains
`config.ini`, record it and do not enqueue its children; else enqueue every
direct subdirectory.  Returns the recorded directories in dequeue order
(the redundant empty-children check of the source is a no-op). -/
def collect_dirs : List (FsPath × DirTree) → List FsPath → List FsPath
  | [], _ => []
  | (p, t) :: rest, ig =>
    if p ∈ ig then collect_dirs rest ig
    else if t.hasConfig then p :: collect_dirs rest ig
    else collect_dirs (rest ++ t.children.map (fun c => (p ++ [c.name], c))) ig
termination_by q _ => queueSize q
decreasing_by
  · have := size_pos t
    simp [queueSize]
    omega
  · have := size_pos t
    simp [queueSize]
    omega
  · have h1 := childrenSize_lt t
    simp [queueSize, List.map_append, List.sum_append, List.map_map, Function.comp_def]
    omega

/-- The same traversal, instrumented with every directory it dequeues (the
set of directories the walk ever looks at). -/
def bfs_visits : List (FsPath × DirTree) → List FsPath → List FsPath
  | [], _ => []
  | (p, t) :: rest, ig =>
    if p ∈ ig then p :: bfs_visits rest ig
    else if t.hasConfig then p :: bfs_visits rest ig
    else p :: bfs_visits (rest ++ t.children.map (fun c => (p ++ [c.name], c))) ig
termination_by q _ => queueSize q
decreasing_by
  · have := size_pos t
    simp [queueSize]
    omega
  · have := size_pos t
    simp [queueSize]
    omega
  · have h1 := childrenSize_lt t
    simp [queueSize, List.map_append, List.sum_append, List.map_map, Function.comp_def]
    omega

mutual

/-- Per-subtree characterization of what `collect_dirs` returns: nothing
under an ignored root, the root alone when it has the marker, otherwise the
union over the children. -/
def specCollect (ig : List FsPath) (p : FsPath) : DirTree → List FsPath
  | .node _ cfg f =>
    if p ∈ ig then []
    else if cfg then [p]
    else specCollectF ig p f

/-- `specCollect` over a forest of children. -/
def specCollectF (ig : List FsPath) (p : FsPath) : DirForest → List FsPath
  | .nil => []
  | .cons c rest => specCollect ig (p ++ [c.name]) c ++ specCollectF ig p rest

end

mutual

/-- Per-subtree characterization of what `bfs_visits` dequeues: the root
always, plus the children's visits unless the root is ignored or carries
the marker. -/
def specVisited (ig : List FsPath) (p : FsPath) : DirTree → List FsPath
  | .node _ cfg f =>
    p :: (if p ∈ ig then []
          else if cfg then []
          else specVisitedF ig p f)

/-- `specVisited` over a forest of children. -/
def specVisitedF (ig : List FsPath) (p : FsPath) : DirForest → List FsPath
  | .nil => []
  | .cons c rest => specVisited ig (p ++ [c.name]) c ++ specVisitedF ig p rest

end

/-- `SubtreeAt p t q u`: walking name components from the directory `t`
(whose resolved path is `p`) reaches the directory `u` at resolved path
`q`. -/
inductive SubtreeAt : FsPath → DirTree → FsPath → DirTree → Prop where
  | here (p : FsPath) (t : DirTree) : SubtreeAt p t p t
  | child (p : FsPath) (t c : DirTree) (q : FsPath) (u : DirTree) :
      c ∈ t.children → SubtreeAt (p ++ [c.name]) c q u → SubtreeAt p t q u

/-- The spec's example subtree `A/B`: no descriptor, no children. -/
def treeBEx : DirTree := DirTree.node "B" false DirForest.nil

/-- The spec's example directory `A`: carries a descriptor and contains the
subdirectory `B`. -/
def treeAEx : DirTree := DirTree.node "A" true (DirForest.cons treeBEx DirForest.nil)

/-- A root directory containing the marker directory `A`. -/
def treeREx : DirTree := DirTree.node "r" false (DirForest.cons treeAEx DirForest.nil)

/-- A concrete ignore list (resolving to a path not in the example tree). -/
def igEx : List FsPath := [["z"]]

/-- Lemma: with a positive block size, the blocks read by `compute_hash`
concatenate back to the whole content. -/
theorem readBlocks_flatten (content : Bytes) (block_size : Nat)
    (h : 0 < block_size) : (readBlocks content block_size).flatten = content := by
  rw [readBlocks]
  by_cases hc : content = []
  · simp [hc]
  · have hb : ¬ (block_size = 0 ∨ content = []) := by
      push_neg
      exact ⟨Nat.pos_iff_ne_zero.mp h, hc⟩
    rw [dif_neg hb]
    have ih := readBlocks_flatten (content.drop block_size) block_size h
    simp [ih]
termination_by content.length
decreasing_by
  have hcl : 0 < content.length := List.length_pos.mpr hc
  simpa using Nat.sub_lt hcl h

/-- Claim C10: block-wise hashing equals one-pass hashing: for every content
and every positive block size, `compute_hash` feeds the hash exactly the
file's bytes, so the digest is a function of the bytes alone, independent
of the block size. -/
theorem compute_hash_blockwise_eq_whole (sha : Bytes → String) (content : Bytes)
    (block_size : Nat) (h : 0 < block_size) :
    compute_hash sha content block_size = sha content := by
  unfold compute_hash
  rw [readBlocks_flatten content block_size h]

/-- Witness for C10 at block size 512 (the source's default) on a concrete
3-byte file. -/
theorem compute_hash_blockwise_eq_whole_witness :
    0 < 512 ∧ compute_hash (fun b => toString b) [1, 2, 3] 512 = toString [1, 2, 3] :=
  ⟨by decide, compute_hash_blockwise_eq_whole (fun b => toString b) [1, 2, 3] 512 (by decide)⟩

/-- Lemma: `a ≤ ceil(a / b) * b` for positive `b`. -/
theorem le_mul_pyCeilDiv (a b : Nat) (hb : 0 < b) : a ≤ pyCeilDiv a b * b := by
  unfold pyCeilDiv
  have h1 := Nat.div_add_mod (a + b - 1) b
  have h2 := Nat.mod_lt (a + b - 1) hb
  have h3 : (a + b - 1) / b * b = b * ((a + b - 1) / b) := Nat.mul_comm _ _
  omega

/-- Lemma: `(ceil(a / b) - 1) * b < a` for positive `a`, `b`: all but the
last resolved part start strictly inside the file. -/
theorem pred_mul_pyCeilDiv_lt (a b : Nat) (hb : 0 < b) (ha : 0 < a) :
    (pyCeilDiv a b - 1) * b < a := by
  unfold pyCeilDiv
  have h1 := Nat.div_mul_le_self (a + b - 1) b
  have h4 := Nat.sub_mul ((a + b - 1) / b) 1 b
  omega

/-- Lemma: the ceiling of `0 / b` is `0`. -/
theorem pyCeilDiv_zero (b : Nat) : pyCeilDiv 0 b = 0 := by
  unfold pyCeilDiv
  rcases Nat.eq_zero_or_pos b with h | h
  · simp [h]
  · exact Nat.div_eq_of_lt (by omega)

/-- Lemma: a positive resolved part count forces a positive file size. -/
theorem pyCeilDiv_pos_arg (a b : Nat) (h : 0 < pyCeilDiv a b) : 0 < a := by
  rcases Nat.eq_zero_or_pos a with ha | ha
  · rw [ha, pyCeilDiv_zero] at h; omega
  · exact ha

/-- Lemma: the chunk written for part `i` has length
`min chunk_size (file_size - i * chunk_size)`. -/
theorem partSizes_eq (content : Bytes) (P C : Nat) :
    partSizes content P C =
      (List.range P).map (fun i => min C (content.length - i * C)) := by
  simp [partSizes, readChunks, List.map_map, Function.comp]

/-- Claim C4 (counterexample to the claim as stated): for `file_size = 10`
with `parts = 7` given, the chunk size resolves to 2 and the written part
sizes are `[2, 2, 2, 2, 2, 0, 0]` — part 5 is empty although it is not the
last part, so it is false that every part except possibly the last has size
`chunk_size`. -/
theorem chunk_sizes_claim_counterexample :
    chunkPlan 10 7 0 = (7, 2)
    ∧ partSizes (List.range 10) 7 2 = [2, 2, 2, 2, 2, 0, 0]
    ∧ ¬ (∀ i, i < 6 → (partSizes (List.range 10) 7 2).getD i 0 = 2) := by
  decide

/-- Claim C4 (amended): the ceiling computations are as claimed in both
directions; part `i` has size `min chunk_size (file_size - i*chunk_size)`,
so trailing parts may be empty when `parts` is given in excess; in the
`chunk_size`-given direction every part except the last has exactly size
`chunk_size` and the last part holds the positive remainder. -/
theorem chunk_arithmetic_amended
    (filesize parts chunk_size : Nat) (content : Bytes) (P C : Nat)
    (hlen : content.length = filesize)
    (hpc : chunkPlan filesize parts chunk_size = (P, C)) :
    (0 < parts → P = parts ∧ C = pyCeilDiv filesize parts)
    ∧ (parts = 0 → P = pyCeilDiv filesize chunk_size ∧ C = chunk_size)
    ∧ partSizes content P C = (List.range P).map (fun i => min C (filesize - i * C))
    ∧ (parts = 0 → 0 < chunk_size → ∀ i, i + 1 < P → min C (filesize - i * C) = C)
    ∧ (parts = 0 → 0 < chunk_size → 0 < P →
        min C (filesize - (P - 1) * C) = filesize - (P - 1) * C
        ∧ 0 < filesize - (P - 1) * C) := by
  subst hlen
  unfold chunkPlan at hpc
  by_cases hp : 0 < parts
  · rw [if_pos hp] at hpc
    obtain ⟨hP, hC⟩ := Prod.mk.injEq .. ▸ hpc
    subst hP
    subst hC
    exact ⟨fun _ => ⟨rfl, rfl⟩, fun h0 => absurd h0 (by omega), partSizes_eq .. ,
           fun h0 => absurd h0 (by omega), fun h0 => absurd h0 (by omega)⟩
  · rw [if_neg hp] at hpc
    obtain ⟨hP, hC⟩ := Prod.mk.injEq .. ▸ hpc
    subst hP
    subst hC
    have hp0 : parts = 0 := by omega
    refine ⟨fun h0 => absurd h0 hp, fun _ => ⟨rfl, rfl⟩, partSizes_eq .., ?_, ?_⟩
    · intro _ hcs i hi
      have hfs : 0 < content.length :=
        pyCeilDiv_pos_arg content.length chunk_size (by omega)
      have h2 := pred_mul_pyCeilDiv_lt content.length chunk_size hcs hfs
      have h3 : (i + 1) * chunk_size ≤ (pyCeilDiv content.length chunk_size - 1) * chunk_size :=
        mul_le_mul_right' (by omega) chunk_size
      have key : chunk_size + i * chunk_size ≤ content.length := by
        calc chunk_size + i * chunk_size = (i + 1) * chunk_size := by ring
          _ ≤ (pyCeilDiv content.length chunk_size - 1) * chunk_size := h3
          _ ≤ content.length := Nat.le_of_lt h2
      exact Nat.min_eq_left (Nat.le_sub_of_add_le key)
    · intro _ hcs hPpos
      have hfs : 0 < content.length := pyCeilDiv_pos_arg _ _ hPpos
      have h2 := pred_mul_pyCeilDiv_lt content.length chunk_size hcs hfs
      have h1 := le_mul_pyCeilDiv content.length chunk_size hcs
      have hPC : (pyCeilDiv content.length chunk_size - 1) * chunk_size + chunk_size
          = pyCeilDiv content.length chunk_size * chunk_size := by
        have hsp : pyCeilDiv content.length chunk_size - 1 + 1
            = pyCeilDiv content.length chunk_size := Nat.succ_pred_eq_of_pos hPpos
        calc (pyCeilDiv content.length chunk_size - 1) * chunk_size + chunk_size
            = (pyCeilDiv content.length chunk_size - 1 + 1) * chunk_size := by ring
          _ = pyCeilDiv content.length chunk_size * chunk_size := by rw [hsp]
      have hle : content.length - (pyCeilDiv content.length chunk_size - 1) * chunk_size
          ≤ chunk_size := by
        apply Nat.sub_le_iff_le_add.mpr
        rw [Nat.add_comm chunk_size, hPC]
        exact h1
      exact ⟨Nat.min_eq_right hle, Nat.sub_pos_of_lt h2⟩

/-- Witness for the amended C4 at the spec's own example: a 10-byte file
with `chunk_size = 3` resolves to 4 parts of sizes `[3, 3, 3, 1]`. -/
theorem chunk_arithmetic_amended_witness :
    ((List.range 10).length = 10 ∧ chunkPlan 10 0 3 = (4, 3))
    ∧ partSizes (List.range 10) 4 3 = (List.range 4).map (fun i => min 3 (10 - i * 3))
    ∧ partSizes (List.range 10) 4 3 = [3, 3, 3, 1] := by
  refine ⟨⟨by decide, by decide⟩, ?_, by decide⟩
  exact (chunk_arithmetic_amended 10 0 3 (List.range 10) 4 3 (by decide) (by decide)).2.2.1

/-- Claim C9: when both `parts > 0` and `chunk_size > 0` are supplied,
`split_file` does not fail: `parts` takes precedence, the supplied
`chunk_size` is ignored (the plan is the same for any supplied value), and
the effective chunk size is recomputed as `ceil(file_size / parts)`. -/
theorem split_both_given_parts_precedence
    (sha : Bytes → String) (zc : Bytes → Bytes) (filename : String) (content : Bytes)
    (filesize parts chunk_size chunk_size2 : Nat) (compress : Bool)
    (hp : 0 < parts) (hcs : 0 < chunk_size) :
    chunkPlan filesize parts chunk_size = (parts, pyCeilDiv filesize parts)
    ∧ chunkPlan filesize parts chunk_size = chunkPlan filesize parts chunk_size2
    ∧ (split_file sha zc filename content parts chunk_size compress).isSome = true := by
  refine ⟨by simp [chunkPlan, hp], by simp [chunkPlan, hp], ?_⟩
  unfold split_file
  rw [if_neg (by omega)]
  simp

/-- Witness for C9 on a 3-byte file with `parts = 2` and `chunk_size = 5`
both supplied. -/
theorem split_both_given_parts_precedence_witness :
    (0 < 2 ∧ 0 < 5)
    ∧ (chunkPlan 3 2 5 = (2, pyCeilDiv 3 2)
       ∧ chunkPlan 3 2 5 = chunkPlan 3 2 7
       ∧ (split_file (fun _ => "") (fun b => b) "a.txt" [1, 2, 3] 2 5 false).isSome = true) :=
  ⟨⟨by decide, by decide⟩,
   split_both_given_parts_precedence (fun _ => "") (fun b => b) "a.txt" [1, 2, 3]
     3 2 5 7 false (by decide) (by decide)⟩

/-- Lemma: looking up key `i` in the association list built over
`List.range' s n` with entries `(j, g j)` returns `some (g i)` whenever
`s ≤ i < s + n`. -/
theorem assocLookup_range' {α : Type} (g : Nat → α) :
    ∀ (n s i : Nat), s ≤ i → i < s + n →
      assocLookup ((List.range' s n).map (fun j => (j, g j))) i = some (g i) := by
  intro n
  induction n with
  | zero => intro s i h1 h2; omega
  | succ n ih =>
    intro s i h1 h2
    rw [List.range'_succ]
    simp only [List.map_cons]
    rw [assocLookup]
    by_cases hi : i = s
    · subst hi; simp
    · rw [if_neg hi]
      exact ih (s + 1) i (by omega) (by omega)

/-- Lemma: the descriptor's index-to-name section maps every index written
by the split loop to the corresponding part file name. -/
theorem assocLookup_mkConfigParts (filename : String) (P i : Nat) (h : i < P) :
    assocLookup (mkConfigParts filename P) i = some (partFileName filename i) := by
  unfold mkConfigParts
  rw [List.range_eq_range']
  exact assocLookup_range' (partFileName filename) P 0 i (by omega) (by omega)

/-- Lemma: mapping only the key component over an enumerated list recovers
the index range. -/
theorem enum_map_fst_comp {α β : Type} (l : List α) (f : Nat → β) :
    l.enum.map (fun e => f e.1) = (List.range l.length).map f := by
  have h : (fun (e : Nat × α) => f e.1) = f ∘ Prod.fst := rfl
  rw [h, ← List.map_map, List.enum_map_fst]

/-- Claim C5 (counterexample to the claim as stated): splitting the 1-byte
file `a.txt` into one part writes the part file `a.txt.0.prt`, not
`a.txt.0.part` as the claim's reserved suffix requires. -/
theorem part_naming_claim_counterexample :
    (split_file (fun _ => "") (fun b => b) "a.txt" [97] 1 0 false).map
        (fun d => d.files.map Prod.fst) = some ["a.txt.0.prt"]
    ∧ "a.txt.0.prt" ≠ "a.txt" ++ "." ++ toString 0 ++ ".part" := by
  decide

/-- Claim C5 (amended): the part file written for index `i` is named exactly
`<original_file_name>.<i>.prt`, and that name is what the descriptor's
index-to-name mapping records for index `i`. -/
theorem split_part_naming_amended
    (sha : Bytes → String) (zc : Bytes → Bytes) (filename : String) (content : Bytes)
    (parts chunk_size : Nat) (compress : Bool) (d : SplitDir)
    (h : split_file sha zc filename content parts chunk_size compress = some d) :
    d.files.map Prod.fst =
      (List.range d.config.parts).map (fun i => filename ++ "." ++ toString i ++ ".prt")
    ∧ ∀ i, i < d.config.parts →
        assocLookup d.config.partEntries i =
          some (filename ++ "." ++ toString i ++ ".prt") := by
  unfold split_file at h
  by_cases h0 : parts = 0 ∧ chunk_size = 0
  · rw [if_pos h0] at h
    exact absurd h (by simp)
  · rw [if_neg h0] at h
    simp only [Option.some.injEq] at h
    subst h
    constructor
    · rw [List.map_map]
      have hcomp : (Prod.fst ∘ fun e : Nat × Bytes =>
          (partFileName filename e.1, if compress then zc e.2 else e.2)) =
          (fun e : Nat × Bytes => partFileName filename e.1) := rfl
      rw [hcomp, enum_map_fst_comp]
      have hlen : (readChunks content (chunkPlan content.length parts chunk_size).1
          (chunkPlan content.length parts chunk_size).2).length =
          (chunkPlan content.length parts chunk_size).1 := by
        simp [readChunks]
      rw [hlen]
      rfl
    · intro i hi
      rw [assocLookup_mkConfigParts filename _ i hi]
      rfl

/-- Witness for the amended C5: splitting a 2-byte `a.txt` with
`chunk_size = 1` yields parts `a.txt.0.prt`, `a.txt.1.prt`, recorded in the
descriptor. -/
theorem split_part_naming_amended_witness :
    split_file (fun _ => "") (fun b => b) "a.txt" [97, 98] 0 1 false = some splitDirEx
    ∧ (splitDirEx.files.map Prod.fst =
        (List.range splitDirEx.config.parts).map
          (fun i => "a.txt" ++ "." ++ toString i ++ ".prt")
      ∧ ∀ i, i < splitDirEx.config.parts →
          assocLookup splitDirEx.config.partEntries i =
            some ("a.txt" ++ "." ++ toString i ++ ".prt")) :=
  ⟨by decide,
   split_part_naming_amended (fun _ => "") (fun b => b) "a.txt" [97, 98]
     0 1 false splitDirEx (by decide)⟩

/-- Lemma: when every index in `l` has a name in the descriptor's part
section, the `get_sorted_files` loop returns exactly those names, in the
order of `l`. -/
theorem collectNames_ok (c : IniConfig) (nm : Nat → String) :
    ∀ (l : List Nat), (∀ i ∈ l, assocLookup c.partEntries i = some (nm i)) →
      collectNames c l = Except.ok (l.map nm) := by
  intro l
  induction l with
  | nil => intro _; rfl
  | cons i rest ih =>
    intro h
    simp only [collectNames, h i (List.mem_cons_self i rest),
      ih (fun j hj => h j (List.mem_cons_of_mem i hj)), List.map_cons]
    rfl

/-- Lemma: when every listed part resolves to a readable buffer that the
(possible) decompression step accepts, the merge loop appends exactly those
buffers, in list order, after the accumulated target. -/
theorem mergeLoop_ok (zd : Bytes → Except MergeErr Bytes) (dec : Bool)
    (files : List (String × Bytes)) (nm : Nat → String) (buf : Nat → Bytes) :
    ∀ (l : List Nat) (target : Bytes),
      (∀ i ∈ l, ∃ raw, assocLookup files (nm i) = some raw ∧
          (if dec then zd raw else Except.ok raw) = Except.ok (buf i)) →
      mergeLoop zd dec files target (l.map nm) =
        Except.ok (target ++ (l.map buf).flatten) := by
  intro l
  induction l with
  | nil => intro target _; simp [mergeLoop]
  | cons i rest ih =>
    intro target h
    obtain ⟨raw, hraw, hproc⟩ := h i (List.mem_cons_self i rest)
    simp only [List.map_cons, mergeLoop, hraw, hproc]
    rw [ih (target ++ buf i) (fun j hj => h j (List.mem_cons_of_mem i hj))]
    simp [List.append_assoc]

/-- Claim C6: `merge` concatenates the parts strictly in descriptor index
order `0, 1, ..., part_count - 1`, resolving each index through the
descriptor's index-to-name mapping; the reconstruction depends only on that
mapping and the named parts' contents, never on part-file-name order. -/
theorem merge_descriptor_index_order
    (zd : Bytes → Except MergeErr Bytes) (d : SplitDir)
    (nm : Nat → String) (buf : Nat → Bytes)
    (hnm : ∀ i, i < d.config.parts →
        assocLookup d.config.partEntries i = some (nm i))
    (hbuf : ∀ i, i < d.config.parts →
        ∃ raw, assocLookup d.files (nm i) = some raw ∧
          (if pyTruthy d.config.compress then zd raw else Except.ok raw) =
            Except.ok (buf i)) :
    get_sorted_files d.config = Except.ok ((List.range d.config.parts).map nm)
    ∧ mergeContent zd d =
        Except.ok (((List.range d.config.parts).map buf).flatten) := by
  have h1 : get_sorted_files d.config =
      Except.ok ((List.range d.config.parts).map nm) :=
    collectNames_ok d.config nm (List.range d.config.parts)
      (fun i hi => hnm i (List.mem_range.mp hi))
  refine ⟨h1, ?_⟩
  unfold mergeContent
  rw [h1]
  have h2 := mergeLoop_ok zd (pyTruthy d.config.compress) d.files nm buf
      (List.range d.config.parts) []
      (fun i hi => hbuf i (List.mem_range.mp hi))
  simpa using h2

/-- Witness for C6 on a concrete two-part directory. -/
theorem merge_descriptor_index_order_witness :
    (∀ i, i < splitDirEx.config.parts →
        assocLookup splitDirEx.config.partEntries i =
          some (if i = 0 then "a.txt.0.prt" else "a.txt.1.prt"))
    ∧ (∀ i, i < splitDirEx.config.parts →
        ∃ raw, assocLookup splitDirEx.files
            (if i = 0 then "a.txt.0.prt" else "a.txt.1.prt") = some raw ∧
          (if pyTruthy splitDirEx.config.compress then (Except.ok raw : Except MergeErr Bytes)
           else Except.ok raw) = Except.ok (if i = 0 then [97] else [98]))
    ∧ get_sorted_files splitDirEx.config =
        Except.ok ["a.txt.0.prt", "a.txt.1.prt"]
    ∧ mergeContent (fun b => Except.ok b) splitDirEx = Except.ok [97, 98] := by
  have hnm : ∀ i, i < splitDirEx.config.parts →
      assocLookup splitDirEx.config.partEntries i =
        some (if i = 0 then "a.txt.0.prt" else "a.txt.1.prt") := by decide
  have hbuf : ∀ i, i < splitDirEx.config.parts →
      ∃ raw, assocLookup splitDirEx.files
          (if i = 0 then "a.txt.0.prt" else "a.txt.1.prt") = some raw ∧
        (if pyTruthy splitDirEx.config.compress then (Except.ok raw : Except MergeErr Bytes)
         else Except.ok raw) = Except.ok (if i = 0 then ([97] : Bytes) else [98]) := by
    intro i hi
    match i, hi with
    | 0, _ => exact ⟨[97], rfl, rfl⟩
    | 1, _ => exact ⟨[98], rfl, rfl⟩
  have h := merge_descriptor_index_order (fun b => Except.ok b) splitDirEx
    (fun i => if i = 0 then "a.txt.0.prt" else "a.txt.1.prt")
    (fun i => if i = 0 then [97] else [98]) hnm hbuf
  exact ⟨hnm, hbuf, h.1, h.2⟩

/-- Claim C1 (the code at the failing input): splitting the 1-byte file
`a.txt` into one uncompressed part and merging the result does not
reproduce the original bytes: `merge` reads the flag string `"False"` from
the descriptor, finds it truthy, and feeds the raw stored part to
`zlib.decompress`, which rejects data that is not a zlib stream (modelled
by the erroring `zdecompress` parameter), so the merge raises instead of
reconstructing the file. -/
theorem round_trip_uncompressed_fails :
    (split_file (fun _ => "H") (fun b => b) "a.txt" [97] 1 0 false).map
        (merge (fun _ => "H") (fun _ => Except.error MergeErr.zlibError)) =
      some (Except.error MergeErr.zlibError) := by
  decide

/-- Claim C2 (the code at the failing input): for a directory produced with
`compress = False`, the descriptor records the string `"False"`, the
truthiness test `if decompress:` nevertheless succeeds, and every part is
routed through `zlib.decompress` (the erroring `zdecompress` is reached)
instead of being appended unchanged. -/
theorem merge_decompress_flag_ignored :
    (split_file (fun _ => "") (fun b => b) "b.bin" [98, 99] 0 1 false).map
        (fun d => (pyTruthy d.config.compress,
          mergeContent (fun _ => Except.error MergeErr.zlibError) d)) =
      some (true, Except.error MergeErr.zlibError) := by
  decide

/-- Claim C3 (counterexample to the claim as stated): in a batch of two
split directories where the first fails hash verification, the bulk merge
loop runs only one `merge` call — the second directory is never processed,
so a mismatch does terminate processing of subsequent items. -/
theorem bulk_merge_mismatch_counterexample :
    merge_dir_trace (fun _ => "H") (fun b => Except.ok b) [dirBadEx, dirGoodEx] =
        [Except.error (MergeErr.systemExit 1)]
    ∧ (merge_dir_trace (fun _ => "H") (fun b => Except.ok b)
        [dirBadEx, dirGoodEx]).length ≠ 2 := by
  decide

/-- Claim C3 (amended): a hash mismatch during bulk merge makes `merge`
call `exit(1)`; the uncaught `SystemExit` terminates the whole batch, so
none of the remaining directories are processed (the trace is the single
failure, for every tail of the batch). -/
theorem bulk_merge_mismatch_halts_batch
    (sha : Bytes → String) (zd : Bytes → Except MergeErr Bytes)
    (d : SplitDir) (rest : List SplitDir)
    (h : merge sha zd d = Except.error (MergeErr.systemExit 1)) :
    merge_dir_trace sha zd (d :: rest) = [Except.error (MergeErr.systemExit 1)] := by
  simp [merge_dir_trace, h]

/-- Witness for the amended C3: the mismatching directory halts a batch
that still has a healthy directory queued behind it. -/
theorem bulk_merge_mismatch_halts_batch_witness :
    merge (fun _ => "H") (fun b => Except.ok b) dirBadEx =
        Except.error (MergeErr.systemExit 1)
    ∧ merge_dir_trace (fun _ => "H") (fun b => Except.ok b) [dirBadEx, dirGoodEx] =
        [Except.error (MergeErr.systemExit 1)] :=
  ⟨by decide,
   bulk_merge_mismatch_halts_batch (fun _ => "H") (fun b => Except.ok b)
     dirBadEx [dirGoodEx] (by decide)⟩

/-- Claim C8: when the path does not resolve to an existing regular file,
the stateful `split_file` stops with the source-not-found condition, and —
like the invalid-arguments guard — it stops before any destructive action:
the returned filesystem is exactly the input filesystem, so no sibling
directory was created or removed and no part was written. -/
theorem split_source_not_found
    (sha : Bytes → String) (zc : Bytes → Bytes) (encodeConfig : IniConfig → Bytes)
    (fs : FS) (parent : FsPath) (filename : String)
    (parts chunk_size : Nat) (remove compress : Bool) :
    ((parts = 0 ∧ chunk_size = 0) →
      split_file_st sha zc encodeConfig fs parent filename parts chunk_size remove compress
        = (fs, SplitStatus.invalidArguments))
    ∧ (¬ (parts = 0 ∧ chunk_size = 0) →
      (∀ b, lookupFS fs (parent ++ [filename]) ≠ some (Entry.file b)) →
      split_file_st sha zc encodeConfig fs parent filename parts chunk_size remove compress
        = (fs, SplitStatus.sourceNotFound)) := by
  constructor
  · intro h0
    unfold split_file_st
    rw [if_pos h0]
  · intro h0 hnf
    unfold split_file_st
    rw [if_neg h0]
    cases hl : lookupFS fs (parent ++ [filename]) with
    | none => simp [hl]
    | some e =>
      cases e with
      | dir => simp [hl]
      | file b => exact absurd hl (hnf b)

/-- Witness for C8: splitting a missing file out of an empty filesystem
reports source-not-found and leaves the filesystem untouched. -/
theorem split_source_not_found_witness :
    (¬ ((1 : Nat) = 0 ∧ (0 : Nat) = 0)
      ∧ ∀ b, lookupFS ([] : FS) (["root"] ++ ["a.txt"]) ≠ some (Entry.file b))
    ∧ split_file_st (fun _ => "") (fun b => b) (fun _ => []) ([] : FS)
        ["root"] "a.txt" 1 0 false false = (([] : FS), SplitStatus.sourceNotFound) :=
  ⟨⟨by decide, fun b => by simp [lookupFS, assocLookup]⟩,
   (split_source_not_found (fun _ => "") (fun b => b) (fun _ => []) ([] : FS)
      ["root"] "a.txt" 1 0 false false).2 (by decide)
      (fun b => by simp [lookupFS, assocLookup])⟩

/-- Lemma: membership in a forest's collection results comes from one of
its trees. -/
theorem mem_specCollectF : ∀ (f : DirForest) (ig : List FsPath) (p x : FsPath),
    x ∈ specCollectF ig p f ↔ ∃ c ∈ f.toList, x ∈ specCollect ig (p ++ [c.name]) c
  | .nil, ig, p, x => by simp [specCollectF, DirForest.toList]
  | .cons c rest, ig, p, x => by
      simp [specCollectF, DirForest.toList, mem_specCollectF rest ig p x]

/-- Lemma: membership in a forest's visit set comes from one of its
trees. -/
theorem mem_specVisitedF : ∀ (f : DirForest) (ig : List FsPath) (p x : FsPath),
    x ∈ specVisitedF ig p f ↔ ∃ c ∈ f.toList, x ∈ specVisited ig (p ++ [c.name]) c
  | .nil, ig, p, x => by simp [specVisitedF, DirForest.toList]
  | .cons c rest, ig, p, x => by
      simp [specVisitedF, DirForest.toList, mem_specVisitedF rest ig p x]

/-- Lemma: a path is returned by the breadth-first `collect_dirs` exactly
when some queue entry's subtree contributes it per `specCollect` (the queue
order only affects result order, not membership). -/
theorem mem_collect_dirs (q : List (FsPath × DirTree)) (ig : List FsPath) :
    ∀ x, x ∈ collect_dirs q ig ↔ ∃ e ∈ q, x ∈ specCollect ig e.1 e.2 := by
  induction q, ig using collect_dirs.induct with
  | case1 ig => simp [collect_dirs]
  | case2 p t rest ig hig ih =>
    intro x
    cases t with
    | node n cfg f =>
      rw [collect_dirs]
      simp only [if_pos hig]
      simp [ih x, specCollect, hig]
  | case3 p t rest ig hig hcfg ih =>
    intro x
    cases t with
    | node n cfg f =>
      rw [collect_dirs]
      simp only [if_neg hig, DirTree.hasConfig] at *
      simp only [if_pos hcfg]
      simp [ih x, specCollect, hig, hcfg]
  | case4 p t rest ig hig hcfg ih =>
    intro x
    cases t with
    | node n cfg f =>
      have hc0 : cfg = false := by
        simpa [DirTree.hasConfig] using hcfg
      subst hc0
      have ih2 := ih x
      simp only [DirTree.children] at ih2
      rw [collect_dirs]
      rw [if_neg hig]
      rw [if_neg (by simp [DirTree.hasConfig])]
      simp only [DirTree.children]
      rw [ih2]
      constructor
      · rintro ⟨e, he, hx⟩
        rcases List.mem_append.mp he with h | h
        · exact ⟨e, List.mem_cons_of_mem _ h, hx⟩
        · obtain ⟨c, hc, rfl⟩ := List.mem_map.mp h
          refine ⟨(p, DirTree.node n false f), List.mem_cons_self _ _, ?_⟩
          show x ∈ specCollect ig p (DirTree.node n false f)
          rw [specCollect, if_neg hig, if_neg (by simp)]
          exact (mem_specCollectF f ig p x).mpr ⟨c, hc, hx⟩
      · rintro ⟨e, he, hx⟩
        rcases List.mem_cons.mp he with h | h
        · subst h
          rw [show ((p, DirTree.node n false f) : FsPath × DirTree).2
              = DirTree.node n false f from rfl] at hx
          rw [specCollect, if_neg hig, if_neg (by simp)] at hx
          obtain ⟨c, hc, hcx⟩ := (mem_specCollectF f ig p x).mp hx
          exact ⟨(p ++ [c.name], c),
            List.mem_append_right _ (List.mem_map.mpr ⟨c, hc, rfl⟩), hcx⟩
        · exact ⟨e, List.mem_append_left _ h, hx⟩

/-- Lemma: a path is dequeued by the traversal exactly when some queue
entry's subtree visits it per `specVisited`. -/
theorem mem_bfs_visits (q : List (FsPath × DirTree)) (ig : List FsPath) :
    ∀ x, x ∈ bfs_visits q ig ↔ ∃ e ∈ q, x ∈ specVisited ig e.1 e.2 := by
  induction q, ig using bfs_visits.induct with
  | case1 ig => simp [bfs_visits]
  | case2 p t rest ig hig ih =>
    intro x
    cases t with
    | node n cfg f =>
      rw [bfs_visits, if_pos hig]
      simp [ih x, specVisited, hig]
  | case3 p t rest ig hig hcfg ih =>
    intro x
    cases t with
    | node n cfg f =>
      have hc1 : cfg = true := by simpa [DirTree.hasConfig] using hcfg
      subst hc1
      rw [bfs_visits, if_neg hig, if_pos (by simp [DirTree.hasConfig])]
      simp [ih x, specVisited, hig]
  | case4 p t rest ig hig hcfg ih =>
    intro x
    cases t with
    | node n cfg f =>
      have hc0 : cfg = false := by simpa [DirTree.hasConfig] using hcfg
      subst hc0
      have ih2 := ih x
      simp only [DirTree.children] at ih2
      rw [bfs_visits, if_neg hig, if_neg (by simp [DirTree.hasConfig])]
      simp only [DirTree.children]
      rw [List.mem_cons, ih2]
      constructor
      · rintro (rfl | ⟨e, he, hx⟩)
        · refine ⟨(x, DirTree.node n false f), List.mem_cons_self _ _, ?_⟩
          show x ∈ specVisited ig x (DirTree.node n false f)
          rw [specVisited]
          exact List.mem_cons_self _ _
        · rcases List.mem_append.mp he with h | h
          · exact ⟨e, List.mem_cons_of_mem _ h, hx⟩
          · obtain ⟨c, hc, rfl⟩ := List.mem_map.mp h
            refine ⟨(p, DirTree.node n false f), List.mem_cons_self _ _, ?_⟩
            show x ∈ specVisited ig p (DirTree.node n false f)
            rw [specVisited, if_neg hig, if_neg (by simp)]
            exact List.mem_cons_of_mem _
              ((mem_specVisitedF f ig p x).mpr ⟨c, hc, hx⟩)
      · rintro ⟨e, he, hx⟩
        rcases List.mem_cons.mp he with h | h
        · subst h
          rw [show ((p, DirTree.node n false f) : FsPath × DirTree).2
              = DirTree.node n false f from rfl] at hx
          rw [specVisited, if_neg hig, if_neg (by simp)] at hx
          rcases List.mem_cons.mp hx with rfl | hx'
          · exact Or.inl rfl
          · obtain ⟨c, hc, hcx⟩ := (mem_specVisitedF f ig p x).mp hx'
            exact Or.inr ⟨(p ++ [c.name], c),
              List.mem_append_right _ (List.mem_map.mpr ⟨c, hc, rfl⟩), hcx⟩
        · exact Or.inr ⟨e, List.mem_append_left _ h, hx⟩

/-- Lemma: a tree in a forest is no larger than the forest. -/
theorem size_le_of_mem_forest : ∀ (f : DirForest) (c : DirTree),
    c ∈ f.toList → c.size ≤ DirForest.sizeF f
  | .nil, c, h => by simp [DirForest.toList] at h
  | .cons t rest, c, h => by
      rcases List.mem_cons.mp h with rfl | h2
      · simp [DirForest.sizeF]
      · have := size_le_of_mem_forest rest c h2
        simp [DirForest.sizeF]
        omega

/-- Lemma: a child is strictly smaller than its parent directory. -/
theorem size_lt_of_mem_children {t c : DirTree} (h : c ∈ t.children) :
    c.size < t.size := by
  cases t with
  | node n cfg f =>
    have := size_le_of_mem_forest f c (by simpa [DirTree.children] using h)
    simp [DirTree.size]
    omega

/-- Lemma: a reached subtree's path extends the walk's starting path. -/
theorem subtreeAt_start_le {p : FsPath} {t : DirTree} {q : FsPath} {u : DirTree}
    (h : SubtreeAt p t q u) : p <+: q := by
  induction h with
  | here p t => exact List.prefix_rfl
  | child p t c q u hc hsub ih => exact (List.prefix_append p [c.name]).trans ih

/-- Lemma: a reachability derivation starts at the node itself or descends
into one child. -/
theorem subtreeAt_inv {p : FsPath} {t : DirTree} {q : FsPath} {u : DirTree}
    (h : SubtreeAt p t q u) :
    (p = q ∧ t = u) ∨ ∃ c ∈ t.children, SubtreeAt (p ++ [c.name]) c q u := by
  cases h with
  | here _ _ => exact Or.inl ⟨rfl, rfl⟩
  | child _ _ c _ _ hc hs => exact Or.inr ⟨c, hc, hs⟩

/-- Lemma: well-formedness passes to every tree of a forest. -/
theorem nodupForestB_mem : ∀ (f : DirForest), nodupForestB f = true →
    ∀ c ∈ f.toList, nodupTreeB c = true
  | .nil, _, c, hc => by simp [DirForest.toList] at hc
  | .cons t rest, h, c, hc => by
      simp only [nodupForestB, Bool.and_eq_true] at h
      rcases List.mem_cons.mp hc with rfl | h2
      · exact h.1
      · exact nodupForestB_mem rest h.2 c h2

/-- Lemma: unpacking well-formedness at a node: distinct sibling names and
well-formed children. -/
theorem nodupTreeB_node {n : String} {cfg : Bool} {f : DirForest}
    (h : nodupTreeB (DirTree.node n cfg f) = true) :
    (f.toList.map DirTree.name).Nodup ∧ ∀ c ∈ f.toList, nodupTreeB c = true := by
  simp only [nodupTreeB, Bool.and_eq_true, decide_eq_true_eq] at h
  exact ⟨h.1, nodupForestB_mem f h.2⟩

/-- Lemma: every visited path extends the subtree's own path. -/
theorem specVisited_start_le : ∀ (ig : List FsPath) (p : FsPath) (t : DirTree)
    (x : FsPath), x ∈ specVisited ig p t → p <+: x
  | ig, p, .node n cfg f, x => fun hx => by
    rw [specVisited] at hx
    rcases List.mem_cons.mp hx with rfl | hx'
    · exact List.prefix_rfl
    · by_cases hig : p ∈ ig
      · rw [if_pos hig] at hx'
        exact absurd hx' (List.not_mem_nil x)
      · rw [if_neg hig] at hx'
        by_cases hcfg : cfg = true
        · rw [if_pos hcfg] at hx'
          exact absurd hx' (List.not_mem_nil x)
        · rw [if_neg hcfg] at hx'
          obtain ⟨c, hc, hxc⟩ := (mem_specVisitedF f ig p x).mp hx'
          have hrec := specVisited_start_le ig (p ++ [c.name]) c x hxc
          exact (List.prefix_append p [c.name]).trans hrec
termination_by _ _ t _ => t.size
decreasing_by
  exact size_lt_of_mem_children (t := DirTree.node n cfg f)
    (by simpa [DirTree.children] using hc)

/-- Lemma: every returned directory was dequeued. -/
theorem specCollect_subset_visited : ∀ (ig : List FsPath) (p : FsPath) (t : DirTree)
    (x : FsPath), x ∈ specCollect ig p t → x ∈ specVisited ig p t
  | ig, p, .node n cfg f, x => fun hx => by
    rw [specCollect] at hx
    rw [specVisited]
    by_cases hig : p ∈ ig
    · rw [if_pos hig] at hx
      exact absurd hx (List.not_mem_nil x)
    · rw [if_neg hig] at hx
      rw [if_neg hig]
      by_cases hcfg : cfg = true
      · rw [if_pos hcfg] at hx
        rw [if_pos hcfg]
        rcases List.mem_singleton.mp hx with rfl
        exact List.mem_cons_self _ _
      · rw [if_neg hcfg] at hx
        rw [if_neg hcfg]
        obtain ⟨c, hc, hxc⟩ := (mem_specCollectF f ig p x).mp hx
        have hrec := specCollect_subset_visited ig (p ++ [c.name]) c x hxc
        exact List.mem_cons_of_mem _ ((mem_specVisitedF f ig p x).mpr ⟨c, hc, hrec⟩)
termination_by _ _ t _ => t.size
decreasing_by
  exact size_lt_of_mem_children (t := DirTree.node n cfg f)
    (by simpa [DirTree.children] using hc)

/-- Lemma: the traversal never returns a directory from the ignore list. -/
theorem specCollect_not_ignored : ∀ (ig : List FsPath) (p : FsPath) (t : DirTree)
    (x : FsPath), x ∈ specCollect ig p t → x ∉ ig
  | ig, p, .node n cfg f, x => fun hx => by
    rw [specCollect] at hx
    by_cases hig : p ∈ ig
    · rw [if_pos hig] at hx
      exact absurd hx (List.not_mem_nil x)
    · rw [if_neg hig] at hx
      by_cases hcfg : cfg = true
      · rw [if_pos hcfg] at hx
        rcases List.mem_singleton.mp hx with rfl
        exact hig
      · rw [if_neg hcfg] at hx
        obtain ⟨c, hc, hxc⟩ := (mem_specCollectF f ig p x).mp hx
        exact specCollect_not_ignored ig (p ++ [c.name]) c x hxc
termination_by _ _ t _ => t.size
decreasing_by
  exact size_lt_of_mem_children (t := DirTree.node n cfg f)
    (by simpa [DirTree.children] using hc)

/-- Lemma: two sibling links into the same path carry the same name. -/
theorem names_eq_of_both_le {p x : FsPath} {a b : String}
    (h1 : p ++ [a] <+: x) (h2 : p ++ [b] <+: x) : a = b := by
  obtain ⟨s1, e1⟩ := h1
  obtain ⟨s2, e2⟩ := h2
  have e3 : (p ++ [a]) ++ s1 = (p ++ [b]) ++ s2 := by rw [e1, e2]
  have hlen : (p ++ [a]).length = (p ++ [b]).length := by simp
  have e4 := (List.append_inj e3 hlen).1
  have e5 : [a] = [b] := by
    have := List.append_cancel_left e4
    exact this
  simpa using e5

/-- Lemma: mutually prefixed paths are equal. -/
theorem path_eq_of_mutual_le {p q : FsPath} (h1 : p <+: q) (h2 : q <+: p) : p = q :=
  h1.eq_of_length (Nat.le_antisymm h1.length_le h2.length_le)

/-- Lemma (stop-at-marker / ignore): in a well-formed tree, once the walk
reaches a directory `q` that is ignored or carries the descriptor, no
strict descendant of `q` is ever visited: any visited path that `q`
prefixes is `q` itself. -/
theorem visited_not_strict_descendant : ∀ (ig : List FsPath) (p : FsPath)
    (t : DirTree) (x q : FsPath) (u : DirTree),
    nodupTreeB t = true → x ∈ specVisited ig p t → SubtreeAt p t q u →
    (q ∈ ig ∨ u.hasConfig = true) → q <+: x → q = x
  | ig, p, .node n cfg f, x, q, u => fun hnd hx hsub hstop hqx => by
    obtain ⟨hnodup, hchildren⟩ := nodupTreeB_node hnd
    rw [specVisited] at hx
    rcases List.mem_cons.mp hx with rfl | hx'
    · exact (path_eq_of_mutual_le (subtreeAt_start_le hsub) hqx).symm ▸ rfl
    · by_cases hig : p ∈ ig
      · rw [if_pos hig] at hx'
        exact absurd hx' (List.not_mem_nil x)
      · rw [if_neg hig] at hx'
        by_cases hcfg : cfg = true
        · rw [if_pos hcfg] at hx'
          exact absurd hx' (List.not_mem_nil x)
        · rw [if_neg hcfg] at hx'
          obtain ⟨c, hc, hxc⟩ := (mem_specVisitedF f ig p x).mp hx'
          rcases subtreeAt_inv hsub with ⟨rfl, rfl⟩ | ⟨c', hc', hsub'⟩
          · rcases hstop with h | h
            · exact absurd h hig
            · exact absurd h (by simp [DirTree.hasConfig, hcfg])
          · have hc'm : c' ∈ f.toList := by simpa [DirTree.children] using hc'
            by_cases hname : c'.name = c.name
            · have hcc : c' = c :=
                List.inj_on_of_nodup_map hnodup hc'm hc hname
              subst hcc
              exact visited_not_strict_descendant ig (p ++ [c'.name]) c' x q u
                (hchildren c' hc'm) hxc hsub' hstop hqx
            · exfalso
              have h2 : p ++ [c'.name] <+: x :=
                (subtreeAt_start_le hsub').trans hqx
              have h3 : p ++ [c.name] <+: x := specVisited_start_le ig _ c x hxc
              exact hname (names_eq_of_both_le h2 h3)
termination_by _ _ t _ _ _ => t.size
decreasing_by
  exact size_lt_of_mem_children (t := DirTree.node n cfg f)
    (by simpa [DirTree.children] using hc'm)

/-- Lemma (recorded-at-marker): in a well-formed tree, a visited,
non-ignored directory that carries the descriptor is recorded as a
result. -/
theorem visited_config_recorded : ∀ (ig : List FsPath) (p : FsPath)
    (t : DirTree) (q : FsPath) (u : DirTree),
    nodupTreeB t = true → SubtreeAt p t q u → u.hasConfig = true → q ∉ ig →
    q ∈ specVisited ig p t → q ∈ specCollect ig p t
  | ig, p, .node n cfg f, q, u => fun hnd hsub hcfgu hqig hvis => by
    obtain ⟨hnodup, hchildren⟩ := nodupTreeB_node hnd
    rw [specVisited] at hvis
    rw [specCollect]
    rcases subtreeAt_inv hsub with ⟨rfl, rfl⟩ | ⟨c, hc, hsub'⟩
    · have hcfg : cfg = true := by simpa [DirTree.hasConfig] using hcfgu
      rw [if_neg hqig, if_pos hcfg]
      exact List.mem_singleton.mpr rfl
    · have hcm : c ∈ f.toList := by simpa [DirTree.children] using hc
      have hlow : p ++ [c.name] <+: q := subtreeAt_start_le hsub'
      rcases List.mem_cons.mp hvis with rfl | hvis'
      · exfalso
        have := hlow.length_le
        simp at this
      · by_cases hig : p ∈ ig
        · rw [if_pos hig] at hvis'
          exact absurd hvis' (List.not_mem_nil q)
        · rw [if_neg hig] at hvis'
          by_cases hcfg : cfg = true
          · rw [if_pos hcfg] at hvis'
            exact absurd hvis' (List.not_mem_nil q)
          · rw [if_neg hcfg] at hvis'
            rw [if_neg hig, if_neg hcfg]
            obtain ⟨c'', hc'', hq''⟩ := (mem_specVisitedF f ig p q).mp hvis'
            have hhigh : p ++ [c''.name] <+: q :=
              specVisited_start_le ig _ c'' q hq''
            have hname : c.name = c''.name := names_eq_of_both_le hlow hhigh
            have hcc : c = c'' := List.inj_on_of_nodup_map hnodup hcm hc'' hname
            subst hcc
            have hrec := visited_config_recorded ig (p ++ [c.name]) c q u
              (hchildren c hcm) hsub' hcfgu hqig hq''
            exact (mem_specCollectF f ig p q).mpr ⟨c, hcm, hrec⟩
termination_by _ _ t _ _ => t.size
decreasing_by
  exact size_lt_of_mem_children (t := DirTree.node n cfg f)
    (by simpa [DirTree.children] using hcm)

/-- Claim C7: for every well-formed directory tree and every directory `q`
reachable in it: (1) if `q` is ignored or contains a descriptor, no strict
descendant of `q` is ever visited by the breadth-first walk; (2) an ignored
directory is never returned; (3) everything returned was visited; (4) a
visited, non-ignored directory containing a descriptor is recorded as a
result (its children are simply not enqueued).  In particular, for a
directory `A` with a descriptor and a subdirectory `A/B`, the path of
`A/B` is never visited or returned. -/
theorem collect_dirs_marker_and_ignore
    (root : FsPath) (t : DirTree) (ig : List FsPath) (q : FsPath) (u : DirTree)
    (hnd : nodupTreeB t = true)
    (hsub : SubtreeAt root t q u) :
    ((q ∈ ig ∨ u.hasConfig = true) →
      ∀ x, x ∈ bfs_visits [(root, t)] ig → q <+: x → q = x)
    ∧ (q ∈ ig → q ∉ collect_dirs [(root, t)] ig)
    ∧ (∀ x, x ∈ collect_dirs [(root, t)] ig → x ∈ bfs_visits [(root, t)] ig)
    ∧ (u.hasConfig = true → q ∉ ig → q ∈ bfs_visits [(root, t)] ig →
        q ∈ collect_dirs [(root, t)] ig) := by
  refine ⟨?_, ?_, ?_, ?_⟩
  · intro hstop x hx hqx
    obtain ⟨e, he, hex⟩ := (mem_bfs_visits [(root, t)] ig x).mp hx
    rcases List.mem_singleton.mp he with rfl
    exact visited_not_strict_descendant ig root t x q u hnd hex hsub hstop hqx
  · intro hq hmem
    obtain ⟨e, he, hex⟩ := (mem_collect_dirs [(root, t)] ig q).mp hmem
    rcases List.mem_singleton.mp he with rfl
    exact specCollect_not_ignored ig root t q hex hq
  · intro x hx
    obtain ⟨e, he, hex⟩ := (mem_collect_dirs [(root, t)] ig x).mp hx
    rcases List.mem_singleton.mp he with rfl
    exact (mem_bfs_visits [(root, t)] ig x).mpr
      ⟨(root, t), List.mem_singleton_self _,
        specCollect_subset_visited ig root t x hex⟩
  · intro hcfg hqig hvis
    obtain ⟨e, he, hex⟩ := (mem_bfs_visits [(root, t)] ig q).mp hvis
    rcases List.mem_singleton.mp he with rfl
    exact (mem_collect_dirs [(root, t)] ig q).mpr
      ⟨(root, t), List.mem_singleton_self _,
        visited_config_recorded ig root t q u hnd hsub hcfg hqig hex⟩

/-- Witness for C7 at the spec's own example: a root containing the marker
directory `A` with subdirectory `A/B`; the path of `A/B` is neither visited
nor returned. -/
theorem collect_dirs_marker_and_ignore_witness :
    (nodupTreeB treeREx = true ∧ treeAEx.hasConfig = true)
    ∧ (["r", "A", "B"] ∉ bfs_visits [(["r"], treeREx)] igEx
       ∧ ["r", "A", "B"] ∉ collect_dirs [(["r"], treeREx)] igEx) := by
  have hnd : nodupTreeB treeREx = true := by decide
  have hsub : SubtreeAt ["r"] treeREx ["r", "A"] treeAEx :=
    SubtreeAt.child ["r"] treeREx treeAEx ["r", "A"] treeAEx
      (List.mem_singleton_self _) (SubtreeAt.here _ _)
  have h := collect_dirs_marker_and_ignore ["r"] treeREx igEx ["r", "A"] treeAEx hnd hsub
  refine ⟨⟨hnd, rfl⟩, ?_, ?_⟩
  · intro hmem
    have heq := h.1 (Or.inr rfl) ["r", "A", "B"] hmem ⟨["B"], rfl⟩
    exact absurd heq (by decide)
  · intro hmem
    have hv := h.2.2.1 ["r", "A", "B"] hmem
    have heq := h.1 (Or.inr rfl) ["r", "A", "B"] hv ⟨["B"], rfl⟩
    exact absurd heq (by decide)
